import Mathlib

/-!
# Verification of the universal-partial-word search program

A shallow embedding of the Python program in `src/code/upword-memoized.py`:
a depth-first search for universal partial words over a finite alphabet with
one wildcard per window, pruned through a memoized window-coverage cache
with explicit eviction.

Python strings become `List Char`; the wildcard is the character 'w'.
Python sets become `Finset (List Char)`; the memoization dictionary becomes
an association list stored in a `SubwordCache` structure.  Recursions that
peel the last character use an explicit length fuel so that all definitions
compute by kernel reduction.
-/

namespace Upword

/-- A word of the search: Python strings over the alphabet plus 'w'. -/
abbrev Word := List Char

/-- Python `s.replace("w", a)`: every occurrence of the wildcard character
    is replaced by the symbol `a`. -/
def replaceWild (a : Char) (s : Word) : Word :=
  s.map (fun c => if c = 'w' then a else c)

/-- Python `word[-n:]`: the final `min n (length word)` characters of `word`.
    (For `n = 0` Python reads `word[-0:] = word`, hence the guard.) -/
def lastWindow (n : Nat) (word : Word) : Word :=
  if n = 0 then word else word.drop (word.length - n)

/-- The loop `for a in alphabet: new_words.add(last_word.replace("w", a))`
    building the set of concrete expansions of one window. -/
def expandWindow (alpha : List Char) (win : Word) : Finset Word :=
  (alpha.map (fun a => replaceWild a win)).toFinset

/-- Length-fuel version of the uncached coverage recurrence of
    `SubwordCache.coveredSubwords` (lines 40-56): below the window length the
    covered set is empty, otherwise it is the covered set of the word minus
    its last character together with the expansions of the final window.
    The fuel equals the word length at every call site. -/
def coveredFuel (alpha : List Char) (n : Nat) : Nat → Word → Finset Word
  | 0, _ => ∅
  | fuel + 1, word =>
    if word.length < n then ∅
    else coveredFuel alpha n fuel word.dropLast ∪ expandWindow alpha (lastWindow n word)

/-- The mathematical (uncached) value of `SubwordCache.coveredSubwords`. -/
def coveredSubwords (alpha : List Char) (n : Nat) (word : Word) : Finset Word :=
  coveredFuel alpha n word.length word

/-- The state of the Python `SubwordCache` object: the memoization dictionary
    `mem_seenWords` (as an association list with distinct keys) and the
    eviction threshold `max_entries` (initialized to 9000 in `__init__`). -/
structure SubwordCache where
  mem_seenWords : List (Word × Finset Word)
  max_entries : Nat
deriving DecidableEq

/-- Dictionary lookup in the memoization table (`word in self.mem_seenWords`
    followed by `self.mem_seenWords[word]`). -/
def lookupCache (m : List (Word × Finset Word)) (w : Word) : Option (Finset Word) :=
  match m with
  | [] => none
  | (k, v) :: rest => if k = w then some v else lookupCache rest w

/-- Length-fuel version of the memoized `SubwordCache.coveredSubwords`
    (lines 40-56): returns the covered set together with the updated cache.
    A word below the window length returns the empty set without touching the
    cache; a cached word returns its stored value; otherwise the value is
    computed through the recurrence and stored under the word. -/
def coveredSubwordsCFuel (alpha : List Char) (n : Nat) :
    Nat → SubwordCache → Word → Finset Word × SubwordCache
  | 0, c, _ => (∅, c)
  | fuel + 1, c, word =>
    if word.length < n then (∅, c)
    else
      match lookupCache c.mem_seenWords word with
      | some v => (v, c)
      | none =>
        let p := coveredSubwordsCFuel alpha n fuel c word.dropLast
        let v := p.1 ∪ expandWindow alpha (lastWindow n word)
        (v, ⟨(word, v) :: p.2.mem_seenWords, p.2.max_entries⟩)

/-- The memoized `SubwordCache.coveredSubwords` (lines 40-56). -/
def coveredSubwordsC (alpha : List Char) (n : Nat) (c : SubwordCache) (word : Word) :
    Finset Word × SubwordCache :=
  coveredSubwordsCFuel alpha n word.length c word

/-- `SubwordCache.size` (lines 58-61): the number of entries in the cache. -/
def size (c : SubwordCache) : Nat :=
  c.mem_seenWords.length

/-- `SubwordCache.setMaxEntries` (lines 63-68). -/
def setMaxEntries (c : SubwordCache) (entries : Nat) : SubwordCache :=
  ⟨c.mem_seenWords, entries⟩

/-- `SubwordCache.expire` (lines 74-97): a no-op while the cache is below
    `max_entries`; otherwise keeps exactly the entries whose key is an element
    of the current stack minus its last character, deleting all others. -/
def expire (c : SubwordCache) (current_stack : List Word) : SubwordCache :=
  if c.mem_seenWords.length < c.max_entries then c
  else
    let truncated_keys := current_stack.map (fun key => key.dropLast)
    ⟨c.mem_seenWords.filter (fun kv => decide (kv.1 ∈ truncated_keys)), c.max_entries⟩

/-- The `for a in alphabet` loop of `SubwordCache.hasRepeatedSubword`
    (lines 106-113): returns `true` at the first alphabet symbol whose
    expansion of the final window lies in `words`, without examining the
    remaining symbols. -/
def hasRepeatedLoop (n : Nat) (word : Word) (words : Finset Word) : List Char → Bool
  | [] => false
  | a :: rest =>
    if replaceWild a (lastWindow n word) ∈ words then true
    else hasRepeatedLoop n word words rest

/-- The mathematical value of `SubwordCache.hasRepeatedSubword` (lines
    100-113), with the coverage of the word minus its last character taken
    from the uncached recurrence. -/
def hasRepeatedSubword (alpha : List Char) (n : Nat) (word : Word) : Bool :=
  hasRepeatedLoop n word (coveredSubwords alpha n word.dropLast) alpha

/-- `SubwordCache.hasRepeatedSubword` (lines 100-113) as the program runs it:
    the coverage of the word minus its last character is obtained from the
    memoized `coveredSubwords`, mutating the cache. -/
def hasRepeatedSubwordC (alpha : List Char) (n : Nat) (c : SubwordCache) (word : Word) :
    Bool × SubwordCache :=
  let p := coveredSubwordsC alpha n c word.dropLast
  (hasRepeatedLoop n word p.1 alpha, p.2)

/-- `target_length = len(alphabet)**(window_length-1) + (window_length-1)`
    (line 126). -/
def target_length (alpha : List Char) (n : Nat) : Nat :=
  alpha.length ^ (n - 1) + (n - 1)

/-- `first_candidate = alphabet[0]` (line 123), as a one-character word. -/
def first_candidate (alpha : List Char) : Word :=
  alpha.take 1

/-- Lines 160-170 with `randomize_walk = False`: the candidate next symbols
    for a popped word are the wildcard alone on the last position of a
    window, and the whole alphabet otherwise. -/
def next_symbols (alpha : List Char) (n : Nat) (word : Word) : List Char :=
  if word.length % n = n - 1 then ['w'] else alpha

/-- The mutable state of the main program: the processing stack (top at the
    end, as for a Python list used with append/pop), the result list
    `upwords`, and the `SubwordCache` object. -/
structure SearchState where
  processing_stack : List Word
  upwords : List Word
  cache : SubwordCache
deriving DecidableEq

/-- Python runtime errors the embedded program can raise. -/
inductive PyErr where
  | nameError
deriving DecidableEq

/-- The names bound in the module scope of the program at the point of the
    result-recording diagnostic print (line 193), translated from the
    module's imports, assignments and loop variables. -/
def moduleNames : List String :=
  ["math", "random", "alphabet", "window_length", "randomize_walk",
   "verbose_output", "output_filename", "SubwordCache", "cache",
   "first_candidate", "target_length", "processing_stack", "upwords",
   "longest", "upword_list", "word", "next_symbols", "isLeafNode", "c",
   "candidate"]

/-- Python name resolution for a global read: a name not bound in the module
    scope raises `NameError`. -/
def lookupName (s : String) : Except PyErr Unit :=
  if s ∈ moduleNames then Except.ok () else Except.error PyErr.nameError

instance {ε α : Type} [DecidableEq ε] [DecidableEq α] : DecidableEq (Except ε α) :=
  fun a b =>
    match a, b with
    | Except.ok x, Except.ok y =>
      if h : x = y then Decidable.isTrue (by rw [h])
      else Decidable.isFalse (fun hc => h (by cases hc; rfl))
    | Except.ok _, Except.error _ => Decidable.isFalse (fun hc => Except.noConfusion hc)
    | Except.error _, Except.ok _ => Decidable.isFalse (fun hc => Except.noConfusion hc)
    | Except.error x, Except.error y =>
      if h : x = y then Decidable.isTrue (by rw [h])
      else Decidable.isFalse (fun hc => h (by cases hc; rfl))

/-- The `for c in next_symbols` body of the main loop (lines 176-199):
    each candidate is the word plus one symbol; a candidate with a repeated
    subword is skipped; a safe candidate of target length is appended to
    `upwords` (and, with verbose output, the diagnostic print then reads the
    unbound name `words`); any other safe candidate is pushed on the stack.
    Returns the leaf flag and the updated state. -/
def processCandidates (verbose : Bool) (alpha : List Char) (n : Nat) (word : Word) :
    List Char → Bool → SearchState → Except PyErr (Bool × SearchState)
  | [], isLeaf, st => Except.ok (isLeaf, st)
  | ch :: rest, isLeaf, st =>
    let candidate := word ++ [ch]
    let p := hasRepeatedSubwordC alpha n st.cache candidate
    let st1 : SearchState := ⟨st.processing_stack, st.upwords, p.2⟩
    if p.1 then processCandidates verbose alpha n word rest isLeaf st1
    else if candidate.length = target_length alpha n then
      let st2 : SearchState := ⟨st1.processing_stack, st1.upwords ++ [candidate], st1.cache⟩
      match (if verbose then lookupName "words" else Except.ok ()) with
      | Except.error e => Except.error e
      | Except.ok _ => processCandidates verbose alpha n word rest false st2
    else
      processCandidates verbose alpha n word rest false
        ⟨st1.processing_stack ++ [candidate], st1.upwords, st1.cache⟩

/-- One iteration of the main `while` loop (lines 146-204): pop the top word,
    process every candidate next symbol, and prune the cache against the
    current stack when the word turned out to be a leaf.  (The progress print
    of lines 150-153 reads only bound names and is external diagnostics.) -/
def searchStepE (verbose : Bool) (alpha : List Char) (n : Nat) (st : SearchState) :
    Except PyErr SearchState :=
  match st.processing_stack.getLast? with
  | none => Except.ok st
  | some word =>
    let st0 : SearchState := ⟨st.processing_stack.dropLast, st.upwords, st.cache⟩
    match processCandidates verbose alpha n word (next_symbols alpha n word) true st0 with
    | Except.error e => Except.error e
    | Except.ok (isLeaf, st1) =>
      Except.ok (if isLeaf then
        ⟨st1.processing_stack, st1.upwords, expire st1.cache st1.processing_stack⟩
      else st1)

/-- The main `while` loop (lines 146-204), with a step budget: runs while the
    processing stack is non-empty. -/
def runE (verbose : Bool) (alpha : List Char) (n : Nat) :
    Nat → SearchState → Except PyErr SearchState
  | 0, st => Except.ok st
  | fuel + 1, st =>
    if st.processing_stack = [] then Except.ok st
    else
      match searchStepE verbose alpha n st with
      | Except.error e => Except.error e
      | Except.ok st1 => runE verbose alpha n fuel st1

/-- The program state after lines 117-140: the cache fresh from `__init__`
    (empty dictionary, `max_entries = 9000`), the stack holding only the
    first candidate, and no results. -/
def initState (alpha : List Char) : SearchState :=
  ⟨[first_candidate alpha], [], ⟨[], 9000⟩⟩

/-- The cache invariant: every stored entry holds the value of the uncached
    coverage recurrence at its key. -/
def CacheOK (alpha : List Char) (n : Nat) (c : SubwordCache) : Prop :=
  ∀ kv ∈ c.mem_seenWords, kv.2 = coveredSubwords alpha n kv.1

/-- Every non-trivial prefix of the word passes the repeated-subword test:
    the property the search establishes for every word it pushes or records,
    since each such word arose by repeatedly extending the seed through
    candidates that `hasRepeatedSubword` accepted. -/
def PassedAllTests (alpha : List Char) (n : Nat) (w : Word) : Prop :=
  ∀ l, 1 ≤ l → l ≤ w.length → hasRepeatedSubword alpha n (w.take l) = false

/-- Diamondicity one: the wildcard appears at exactly the last position of
    each window frame (index congruent to `n - 1` modulo `n`). -/
def oneWildcardPerWindow (n : Nat) (w : Word) : Prop :=
  ∀ (i : Nat) (h : i < w.length), (w.get ⟨i, h⟩ = 'w' ↔ i % n = n - 1)

/-- The window of length `n` starting at position `i` of a word. -/
def windowAt (n : Nat) (w : Word) (i : Nat) : Word :=
  (w.drop i).take n

/-- No concrete window is produced twice: expanding the windows at two
    distinct pairs (position, expansion symbol) always yields two distinct
    concrete windows. -/
def noRepeatedWindow (alpha : List Char) (n : Nat) (x : Word) : Prop :=
  ∀ i j a b, i + n ≤ x.length → j + n ≤ x.length → a ∈ alpha → b ∈ alpha →
    ¬(i = j ∧ a = b) →
    replaceWild a (windowAt n x i) ≠ replaceWild b (windowAt n x j)

/-- One operation on the `SubwordCache` object: a memoized coverage query,
    an `expire` call with an arbitrary frontier, or a `setMaxEntries` call. -/
inductive CacheOp where
  | query (w : Word)
  | expireOp (frontier : List Word)
  | setMax (k : Nat)

/-- The state change each cache operation performs. -/
def applyOp (alpha : List Char) (n : Nat) (c : SubwordCache) : CacheOp → SubwordCache
  | CacheOp.query w => (coveredSubwordsC alpha n c w).2
  | CacheOp.expireOp f => expire c f
  | CacheOp.setMax k => setMaxEntries c k

/-- Runs a sequence of cache operations on a freshly constructed
    `SubwordCache` (empty dictionary, `max_entries = 9000`). -/
def runOps (alpha : List Char) (n : Nat) (ops : List CacheOp) : SubwordCache :=
  ops.foldl (applyOp alpha n) ⟨[], 9000⟩

/-- The search invariant: the cache holds only correct coverage values, and
    every word on the stack or among the results has one wildcard per window
    and passed every repeated-subword test along its construction; recorded
    results moreover have the target length. -/
def SearchInv (alpha : List Char) (n : Nat) (st : SearchState) : Prop :=
  CacheOK alpha n st.cache ∧
  (∀ w ∈ st.processing_stack, oneWildcardPerWindow n w ∧ PassedAllTests alpha n w) ∧
  (∀ w ∈ st.upwords, oneWildcardPerWindow n w ∧ PassedAllTests alpha n w ∧
    w.length = target_length alpha n)

/-! ## Basic properties of the coverage recurrence -/

theorem coveredSubwords_short (alpha : List Char) (n : Nat) (word : Word)
    (h : word.length < n) : coveredSubwords alpha n word = ∅ := by
  cases word with
  | nil => rfl
  | cons c cs =>
    show coveredFuel alpha n (cs.length + 1) (c :: cs) = ∅
    simp only [coveredFuel]
    rw [if_pos h]

theorem coveredFuel_eq_covered (alpha : List Char) (n : Nat) (hn : 1 ≤ n) :
    ∀ (fuel : Nat) (word : Word), word.length ≤ fuel →
      coveredFuel alpha n fuel word = coveredSubwords alpha n word := by
  intro fuel
  induction fuel with
  | zero =>
    intro word hw
    have h0 : word = [] := List.length_eq_zero.mp (Nat.le_zero.mp hw)
    subst h0; rfl
  | succ fuel ih =>
    intro word hw
    by_cases h : word.length < n
    · rw [coveredSubwords_short alpha n word h]
      simp [coveredFuel, h]
    · have hne : word ≠ [] := by
        intro he; subst he; simp at h; omega
      have hpos : 1 ≤ word.length := List.length_pos.mpr hne
      have hk : word.length = word.dropLast.length + 1 := by
        rw [List.length_dropLast]; omega
      have h1 : coveredFuel alpha n (fuel + 1) word =
          coveredFuel alpha n fuel word.dropLast ∪ expandWindow alpha (lastWindow n word) := by
        simp [coveredFuel, h]
      have h2 : coveredSubwords alpha n word =
          coveredFuel alpha n word.dropLast.length word.dropLast ∪
            expandWindow alpha (lastWindow n word) := by
        rw [coveredSubwords, hk]
        simp [coveredFuel, h]
      rw [h1, h2, ih word.dropLast (by omega)]
      rw [coveredSubwords]

theorem coveredSubwords_rec (alpha : List Char) (n : Nat) (hn : 1 ≤ n) (word : Word)
    (h : n ≤ word.length) :
    coveredSubwords alpha n word =
      coveredSubwords alpha n word.dropLast ∪ expandWindow alpha (lastWindow n word) := by
  have hne : word ≠ [] := by
    intro he; subst he; simp at h; omega
  have hpos : 1 ≤ word.length := List.length_pos.mpr hne
  have hk : word.length = word.dropLast.length + 1 := by
    rw [List.length_dropLast]; omega
  have hnot : ¬ word.length < n := Nat.not_lt.mpr h
  have h2 : coveredSubwords alpha n word =
      coveredFuel alpha n word.dropLast.length word.dropLast ∪
        expandWindow alpha (lastWindow n word) := by
    rw [coveredSubwords, hk]
    simp [coveredFuel, hnot]
  rw [h2, coveredFuel_eq_covered alpha n hn word.dropLast.length word.dropLast le_rfl]

/-! ## The repeated-subword test loop -/

theorem hasRepeatedLoop_false_iff (n : Nat) (word : Word) (ws : Finset Word) (l : List Char) :
    hasRepeatedLoop n word ws l = false ↔
      ∀ a ∈ l, replaceWild a (lastWindow n word) ∉ ws := by
  induction l with
  | nil => simp [hasRepeatedLoop]
  | cons a rest ih =>
    by_cases h : replaceWild a (lastWindow n word) ∈ ws
    · simp [hasRepeatedLoop, h]
    · simp [hasRepeatedLoop, h, ih]

theorem hasRepeatedLoop_true_iff (n : Nat) (word : Word) (ws : Finset Word) (l : List Char) :
    hasRepeatedLoop n word ws l = true ↔
      ∃ a ∈ l, replaceWild a (lastWindow n word) ∈ ws := by
  induction l with
  | nil => simp [hasRepeatedLoop]
  | cons a rest ih =>
    by_cases h : replaceWild a (lastWindow n word) ∈ ws
    · simp [hasRepeatedLoop, h]
    · simp [hasRepeatedLoop, h, ih]

/-! ## Cache correctness -/

theorem lookupCache_mem (m : List (Word × Finset Word)) (w : Word) (v : Finset Word)
    (h : lookupCache m w = some v) : (w, v) ∈ m := by
  induction m with
  | nil => simp [lookupCache] at h
  | cons kv rest ih =>
    obtain ⟨k, v0⟩ := kv
    by_cases hk : k = w
    · subst hk
      simp [lookupCache] at h
      subst h
      exact List.mem_cons_self _ _
    · simp [lookupCache, hk] at h
      exact List.mem_cons_of_mem _ (ih h)

theorem coveredSubwordsCFuel_correct (alpha : List Char) (n : Nat) (hn : 1 ≤ n) :
    ∀ (fuel : Nat) (c : SubwordCache) (word : Word), word.length ≤ fuel →
      CacheOK alpha n c →
      (coveredSubwordsCFuel alpha n fuel c word).1 = coveredSubwords alpha n word ∧
      CacheOK alpha n (coveredSubwordsCFuel alpha n fuel c word).2 ∧
      (coveredSubwordsCFuel alpha n fuel c word).2.max_entries = c.max_entries := by
  intro fuel
  induction fuel with
  | zero =>
    intro c word hw hc
    have h0 : word = [] := List.length_eq_zero.mp (Nat.le_zero.mp hw)
    subst h0
    exact ⟨rfl, hc, rfl⟩
  | succ fuel ih =>
    intro c word hw hc
    by_cases h : word.length < n
    · rw [coveredSubwords_short alpha n word h]
      simp only [coveredSubwordsCFuel, if_pos h]
      exact ⟨by trivial, hc, by trivial⟩
    · have hne : word ≠ [] := by
        intro he; subst he; simp at h; omega
      have hpos : 1 ≤ word.length := List.length_pos.mpr hne
      cases hl : lookupCache c.mem_seenWords word with
      | some v =>
        simp only [coveredSubwordsCFuel, if_neg h, hl]
        exact ⟨(hc _ (lookupCache_mem _ _ _ hl)), hc, by trivial⟩
      | none =>
        have hdl : word.dropLast.length ≤ fuel := by
          rw [List.length_dropLast]; omega
        obtain ⟨ih1, ih2, ih3⟩ := ih c word.dropLast hdl hc
        simp only [coveredSubwordsCFuel, if_neg h, hl]
        refine ⟨?_, ?_, ih3⟩
        · rw [ih1, coveredSubwords_rec alpha n hn word (Nat.not_lt.mp h)]
        · intro kv hkv
          rcases List.mem_cons.mp hkv with heq | hmem
          · subst heq
            simp only
            rw [ih1, coveredSubwords_rec alpha n hn word (Nat.not_lt.mp h)]
          · exact ih2 kv hmem

theorem coveredSubwordsC_correct (alpha : List Char) (n : Nat) (hn : 1 ≤ n)
    (c : SubwordCache) (word : Word) (hc : CacheOK alpha n c) :
    (coveredSubwordsC alpha n c word).1 = coveredSubwords alpha n word ∧
    CacheOK alpha n (coveredSubwordsC alpha n c word).2 := by
  obtain ⟨h1, h2, _⟩ :=
    coveredSubwordsCFuel_correct alpha n hn word.length c word le_rfl hc
  exact ⟨h1, h2⟩

theorem expire_cacheOK (alpha : List Char) (n : Nat) (c : SubwordCache)
    (frontier : List Word) (hc : CacheOK alpha n c) :
    CacheOK alpha n (expire c frontier) := by
  unfold expire
  by_cases h : c.mem_seenWords.length < c.max_entries
  · simpa [h] using hc
  · simp only [if_neg h]
    intro kv hkv
    exact hc kv (List.mem_of_mem_filter hkv)

theorem setMaxEntries_cacheOK (alpha : List Char) (n : Nat) (c : SubwordCache)
    (k : Nat) (hc : CacheOK alpha n c) : CacheOK alpha n (setMaxEntries c k) := hc

theorem runOps_cacheOK (alpha : List Char) (n : Nat) (hn : 1 ≤ n) (ops : List CacheOp) :
    CacheOK alpha n (runOps alpha n ops) := by
  have base : CacheOK alpha n ⟨[], 9000⟩ := by
    intro kv hkv; simp at hkv
  rw [runOps]
  generalize hc0 : (⟨[], 9000⟩ : SubwordCache) = c0
  rw [hc0] at base
  clear hc0
  induction ops generalizing c0 with
  | nil => exact base
  | cons op rest ih =>
    rw [List.foldl_cons]
    apply ih
    cases op with
    | query w => exact (coveredSubwordsC_correct alpha n hn c0 w base).2
    | expireOp f => exact expire_cacheOK alpha n c0 f base
    | setMax k => exact setMaxEntries_cacheOK alpha n c0 k base

/-! ## Windows and the set of covered subwords -/

theorem hasRepeatedSubword_false_iff (alpha : List Char) (n : Nat) (word : Word) :
    hasRepeatedSubword alpha n word = false ↔
      ∀ a ∈ alpha,
        replaceWild a (lastWindow n word) ∉ coveredSubwords alpha n word.dropLast :=
  hasRepeatedLoop_false_iff n word _ alpha

theorem windowAt_take (n : Nat) (x : Word) (i m : Nat) (h : i + n ≤ m) :
    windowAt n (x.take m) i = windowAt n x i := by
  unfold windowAt
  rw [List.drop_take, List.take_take, Nat.min_eq_left (by omega)]

theorem lastWindow_eq_windowAt (n : Nat) (x : Word) (hn : 1 ≤ n) (h : n ≤ x.length) :
    lastWindow n x = windowAt n x (x.length - n) := by
  unfold lastWindow windowAt
  rw [if_neg (by omega), List.take_of_length_le (by rw [List.length_drop]; omega)]

theorem windowAt_length (n : Nat) (x : Word) (i : Nat) (h : i + n ≤ x.length) :
    (windowAt n x i).length = n := by
  unfold windowAt
  rw [List.length_take, List.length_drop]
  omega

theorem mem_expandWindow (alpha : List Char) (win : Word) (a : Char) (ha : a ∈ alpha) :
    replaceWild a win ∈ expandWindow alpha win := by
  unfold expandWindow
  rw [List.mem_toFinset, List.mem_map]
  exact ⟨a, ha, rfl⟩

theorem coveredSubwords_eq_biUnion (alpha : List Char) (n : Nat) (hn : 1 ≤ n) (w : Word) :
    coveredSubwords alpha n w =
      (Finset.range (w.length + 1 - n)).biUnion
        (fun i => expandWindow alpha (windowAt n w i)) := by
  induction w using List.reverseRecOn with
  | nil =>
    have h0 : (List.nil : Word).length + 1 - n = 0 := by simp; omega
    rw [h0]
    simp [coveredSubwords, coveredFuel]
  | append_singleton ys c ih =>
    have hlen : (ys ++ [c]).length = ys.length + 1 := by simp
    by_cases hsh : (ys ++ [c]).length < n
    · rw [coveredSubwords_short alpha n _ hsh]
      have h0 : (ys ++ [c]).length + 1 - n = 0 := by omega
      rw [h0]
      simp
    · have hnle : n ≤ ys.length + 1 := by omega
      rw [coveredSubwords_rec alpha n hn _ (Nat.not_lt.mp hsh), List.dropLast_concat, ih,
        lastWindow_eq_windowAt n _ hn (Nat.not_lt.mp hsh)]
      have htk : (ys ++ [c]).take ys.length = ys := by
        rw [List.take_append_of_le_length le_rfl, List.take_length]
      have hwin : ∀ i ∈ Finset.range (ys.length + 1 - n),
          expandWindow alpha (windowAt n ys i) =
            expandWindow alpha (windowAt n (ys ++ [c]) i) := by
        intro i hi
        rw [Finset.mem_range] at hi
        rw [← htk, windowAt_take n (ys ++ [c]) i ys.length (by omega), htk]
      rw [Finset.biUnion_congr rfl hwin]
      rw [show (ys ++ [c]).length + 1 - n = (ys.length + 1 - n) + 1 by omega]
      rw [Finset.range_succ, Finset.biUnion_insert]
      rw [show (ys ++ [c]).length - n = ys.length + 1 - n by omega]
      exact Finset.union_comm _ _

theorem expansion_mem_covered (alpha : List Char) (n : Nat) (hn : 1 ≤ n) (w : Word)
    (i : Nat) (a : Char) (ha : a ∈ alpha) (hi : i + n ≤ w.length) :
    replaceWild a (windowAt n w i) ∈ coveredSubwords alpha n w := by
  rw [coveredSubwords_eq_biUnion alpha n hn w]
  exact Finset.mem_biUnion.mpr
    ⟨i, Finset.mem_range.mpr (by omega), mem_expandWindow alpha _ a ha⟩

theorem replaceWild_inj (win : Word) (k : Nat) (hk : k < win.length)
    (hwk : win.get ⟨k, hk⟩ = 'w') (a b : Char)
    (h : replaceWild a win = replaceWild b win) : a = b := by
  have h2 := congrArg (fun l : Word => l[k]?) h
  simp only [replaceWild, List.getElem?_map, List.getElem?_eq_getElem hk] at h2
  simp only [List.get_eq_getElem] at hwk
  simp only [hwk, Option.map_some, if_pos rfl] at h2
  exact Option.some.inj h2

theorem windowAt_getElem (n : Nat) (x : Word) (i k : Nat) (hin : i + n ≤ x.length)
    (hk : k < n) :
    (windowAt n x i).get ⟨k, by rw [windowAt_length n x i hin]; exact hk⟩ =
      x.get ⟨i + k, by omega⟩ := by
  simp only [windowAt, List.get_eq_getElem, List.getElem_take, List.getElem_drop]

/-- The central pruning argument: a word all of whose non-trivial prefixes
    pass `hasRepeatedSubword`, built with one wildcard per window, never
    produces the same concrete window at two distinct (position, expansion
    symbol) pairs. -/
theorem passed_imp_noRepeatedWindow (alpha : List Char) (n : Nat) (hn : 2 ≤ n)
    (x : Word) (hgood : oneWildcardPerWindow n x)
    (hpass : PassedAllTests alpha n x) : noRepeatedWindow alpha n x := by
  have hn1 : 1 ≤ n := by omega
  have asym : ∀ i j a b, i < j → j + n ≤ x.length → a ∈ alpha → b ∈ alpha →
      replaceWild a (windowAt n x i) ≠ replaceWild b (windowAt n x j) := by
    intro i j a b hij hjn ha hb heq
    have hfalse := hpass (j + n) (by omega) hjn
    rw [hasRepeatedSubword_false_iff] at hfalse
    have hlen_u : (x.take (j + n)).length = j + n := by
      rw [List.length_take]; omega
    have hnu : n ≤ (x.take (j + n)).length := by rw [hlen_u]; omega
    have hlast : lastWindow n (x.take (j + n)) = windowAt n x j := by
      rw [lastWindow_eq_windowAt n _ hn1 hnu, hlen_u,
        show j + n - n = j from by omega, windowAt_take n x j (j + n) le_rfl]
    have hdrop : (x.take (j + n)).dropLast = x.take (j + n - 1) := by
      rw [List.dropLast_eq_take, hlen_u, List.take_take, Nat.min_eq_left (by omega)]
    have hmem : replaceWild a (windowAt n x i) ∈
        coveredSubwords alpha n (x.take (j + n - 1)) := by
      have hi2 : i + n ≤ (x.take (j + n - 1)).length := by
        rw [List.length_take]; omega
      have hm := expansion_mem_covered alpha n hn1 (x.take (j + n - 1)) i a ha hi2
      rwa [windowAt_take n x i (j + n - 1) (by omega)] at hm
    have hnot := hfalse b hb
    rw [hlast, hdrop] at hnot
    rw [heq] at hmem
    exact hnot hmem
  intro i j a b hi hj ha hb hne heq
  rcases Nat.lt_trichotomy i j with hij | hij | hij
  · exact asym i j a b hij hj ha hb heq
  · subst hij
    have hab : a ≠ b := fun h => hne ⟨rfl, h⟩
    have hk1 : i % n < n := Nat.mod_lt _ (by omega)
    have hdm := Nat.div_add_mod i n
    have hkm : (i + (n - 1 - i % n)) % n = n - 1 := by
      have h3 : i + (n - 1 - i % n) = n * (i / n) + (n - 1) := by omega
      rw [h3, Nat.mul_add_mod]
      exact Nat.mod_eq_of_lt (by omega)
    have hkn : n - 1 - i % n < n := by omega
    have hplen : i + (n - 1 - i % n) < x.length := by omega
    have hwild : x.get ⟨i + (n - 1 - i % n), hplen⟩ = 'w' :=
      (hgood (i + (n - 1 - i % n)) hplen).mpr hkm
    have hwk : (windowAt n x i).get
        ⟨n - 1 - i % n, by rw [windowAt_length n x i hi]; exact hkn⟩ = 'w' := by
      rw [windowAt_getElem n x i (n - 1 - i % n) hi hkn]
      exact hwild
    exact hab (replaceWild_inj _ _ _ hwk a b heq)
  · exact asym j i b a hij hi hb ha heq.symm

/-! ## The search-loop invariant -/

theorem hasRepeatedLoop_empty (n : Nat) (word : Word) (l : List Char) :
    hasRepeatedLoop n word ∅ l = false :=
  (hasRepeatedLoop_false_iff n word ∅ l).mpr (fun _ _ => Finset.not_mem_empty _)

theorem hasRepeatedSubword_short (alpha : List Char) (n : Nat) (hn : 1 ≤ n)
    (word : Word) (hlen : word.length ≤ n) :
    hasRepeatedSubword alpha n word = false := by
  unfold hasRepeatedSubword
  rw [coveredSubwords_short alpha n _ (by rw [List.length_dropLast]; omega)]
  exact hasRepeatedLoop_empty n word alpha

theorem hasRepeatedSubwordC_correct (alpha : List Char) (n : Nat) (hn : 1 ≤ n)
    (c : SubwordCache) (word : Word) (hc : CacheOK alpha n c) :
    (hasRepeatedSubwordC alpha n c word).1 = hasRepeatedSubword alpha n word ∧
    CacheOK alpha n (hasRepeatedSubwordC alpha n c word).2 := by
  obtain ⟨h1, h2⟩ := coveredSubwordsC_correct alpha n hn c word.dropLast hc
  constructor
  · show hasRepeatedLoop n word (coveredSubwordsC alpha n c word.dropLast).1 alpha =
      hasRepeatedSubword alpha n word
    rw [h1]
    rfl
  · exact h2

theorem passedAllTests_extend (alpha : List Char) (n : Nat) (word : Word) (c : Char)
    (hp : PassedAllTests alpha n word)
    (hc : hasRepeatedSubword alpha n (word ++ [c]) = false) :
    PassedAllTests alpha n (word ++ [c]) := by
  intro l h1 h2
  rw [List.length_append, List.length_singleton] at h2
  by_cases hl : l ≤ word.length
  · rw [List.take_append_of_le_length hl]
    exact hp l h1 hl
  · have hleq : l = word.length + 1 := by omega
    subst hleq
    rw [List.take_of_length_le (by rw [List.length_append, List.length_singleton])]
    exact hc

theorem oneWildcard_extend (n : Nat) (word : Word) (c : Char)
    (hg : oneWildcardPerWindow n word)
    (hc : c = 'w' ↔ word.length % n = n - 1) :
    oneWildcardPerWindow n (word ++ [c]) := by
  intro i h
  have hlen : i < word.length + 1 := by
    rw [List.length_append, List.length_singleton] at h
    exact h
  by_cases hi : i < word.length
  · have hget : (word ++ [c]).get ⟨i, h⟩ = word.get ⟨i, hi⟩ := by
      simp [List.get_eq_getElem, List.getElem_append_left hi]
    rw [hget]
    exact hg i hi
  · have hieq : i = word.length := by omega
    subst hieq
    have hget : (word ++ [c]).get ⟨word.length, h⟩ = c := by
      simp [List.get_eq_getElem]
    rw [hget, hc]

theorem next_symbols_spec (alpha : List Char) (n : Nat) (hw : 'w' ∉ alpha)
    (word : Word) (c : Char) (hc : c ∈ next_symbols alpha n word) :
    (c = 'w' ↔ word.length % n = n - 1) := by
  unfold next_symbols at hc
  by_cases h : word.length % n = n - 1
  · rw [if_pos h] at hc
    rw [List.mem_singleton] at hc
    subst hc
    exact iff_of_true rfl h
  · rw [if_neg h] at hc
    constructor
    · intro hcw
      subst hcw
      exact absurd hc hw
    · intro hh
      exact absurd hh h

theorem processCandidates_inv (alpha : List Char) (n : Nat) (hn : 2 ≤ n)
    (word : Word) (hgood : oneWildcardPerWindow n word)
    (hpassed : PassedAllTests alpha n word) :
    ∀ (syms : List Char), (∀ c ∈ syms, (c = 'w' ↔ word.length % n = n - 1)) →
    ∀ (isLeaf : Bool) (st : SearchState) (b : Bool) (st1 : SearchState),
      SearchInv alpha n st →
      processCandidates false alpha n word syms isLeaf st = Except.ok (b, st1) →
      SearchInv alpha n st1 := by
  intro syms
  induction syms with
  | nil =>
    intro _ isLeaf st b st1 hinv h
    simp only [processCandidates] at h
    cases h
    exact hinv
  | cons ch rest ih =>
    intro hsyms isLeaf st b st1 hinv h
    have hn1 : 1 ≤ n := by omega
    obtain ⟨hcache, hstack, hup⟩ := hinv
    obtain ⟨hcval, hcok⟩ :=
      hasRepeatedSubwordC_correct alpha n hn1 st.cache (word ++ [ch]) hcache
    have hrest : ∀ c ∈ rest, (c = 'w' ↔ word.length % n = n - 1) :=
      fun c hc => hsyms c (List.mem_cons_of_mem _ hc)
    by_cases hrep : (hasRepeatedSubwordC alpha n st.cache (word ++ [ch])).1 = true
    · simp only [processCandidates, hrep, if_true] at h
      exact ih hrest isLeaf
        ⟨st.processing_stack, st.upwords, (hasRepeatedSubwordC alpha n st.cache (word ++ [ch])).2⟩
        b st1 ⟨hcok, hstack, hup⟩ h
    · rw [Bool.not_eq_true] at hrep
      have hpure : hasRepeatedSubword alpha n (word ++ [ch]) = false := by
        rw [← hcval]; exact hrep
      have hcandgood : oneWildcardPerWindow n (word ++ [ch]) :=
        oneWildcard_extend n word ch hgood (hsyms ch (List.mem_cons_self _ _))
      have hcandpass : PassedAllTests alpha n (word ++ [ch]) :=
        passedAllTests_extend alpha n word ch hpassed hpure
      by_cases htgt : (word ++ [ch]).length = target_length alpha n
      · simp only [processCandidates, hrep, Bool.false_eq_true, if_false, htgt, if_true,
          if_neg (Bool.false_ne_true)] at h
        refine ih hrest false
          ⟨st.processing_stack, st.upwords ++ [word ++ [ch]],
            (hasRepeatedSubwordC alpha n st.cache (word ++ [ch])).2⟩
          b st1 ⟨hcok, hstack, ?_⟩ h
        intro w hwmem
        rcases List.mem_append.mp hwmem with hmem | hmem
        · exact hup w hmem
        · rw [List.mem_singleton] at hmem
          subst hmem
          exact ⟨hcandgood, hcandpass, htgt⟩
      · simp only [processCandidates, hrep, Bool.false_eq_true, if_false, htgt] at h
        refine ih hrest false
          ⟨st.processing_stack ++ [word ++ [ch]], st.upwords,
            (hasRepeatedSubwordC alpha n st.cache (word ++ [ch])).2⟩
          b st1 ⟨hcok, ?_, hup⟩ h
        intro w hwmem
        rcases List.mem_append.mp hwmem with hmem | hmem
        · exact hstack w hmem
        · rw [List.mem_singleton] at hmem
          subst hmem
          exact ⟨hcandgood, hcandpass⟩

theorem searchStepE_inv (alpha : List Char) (n : Nat) (hn : 2 ≤ n) (hw : 'w' ∉ alpha)
    (st st1 : SearchState) (hinv : SearchInv alpha n st)
    (h : searchStepE false alpha n st = Except.ok st1) : SearchInv alpha n st1 := by
  unfold searchStepE at h
  cases hpop : st.processing_stack.getLast? with
  | none =>
    rw [hpop] at h
    cases h
    exact hinv
  | some word =>
    rw [hpop] at h
    dsimp only at h
    obtain ⟨hcache, hstack, hup⟩ := hinv
    obtain ⟨ys, hys⟩ := List.getLast?_eq_some_iff.mp hpop
    have hword : word ∈ st.processing_stack := List.mem_of_getLast?_eq_some hpop
    obtain ⟨hwgood, hwpass⟩ := hstack word hword
    have hst0 : SearchInv alpha n ⟨st.processing_stack.dropLast, st.upwords, st.cache⟩ := by
      refine ⟨hcache, ?_, hup⟩
      intro w hwmem
      rw [hys, List.dropLast_concat] at hwmem
      exact hstack w (by rw [hys]; exact List.mem_append_left _ hwmem)
    cases hproc : processCandidates false alpha n word (next_symbols alpha n word) true
        ⟨st.processing_stack.dropLast, st.upwords, st.cache⟩ with
    | error e =>
      rw [hproc] at h
      cases h
    | ok r =>
      obtain ⟨isLeaf, st2⟩ := r
      rw [hproc] at h
      have hinv2 : SearchInv alpha n st2 :=
        processCandidates_inv alpha n hn word hwgood hwpass (next_symbols alpha n word)
          (fun c hc => next_symbols_spec alpha n hw word c hc) true _ isLeaf st2 hst0 hproc
      cases h
      by_cases hleaf : isLeaf = true
      · rw [if_pos hleaf]
        exact ⟨expire_cacheOK alpha n st2.cache st2.processing_stack hinv2.1,
          hinv2.2.1, hinv2.2.2⟩
      · rw [if_neg hleaf]
        exact hinv2

theorem runE_inv (alpha : List Char) (n : Nat) (hn : 2 ≤ n) (hw : 'w' ∉ alpha) :
    ∀ (fuel : Nat) (st st1 : SearchState), SearchInv alpha n st →
      runE false alpha n fuel st = Except.ok st1 → SearchInv alpha n st1 := by
  intro fuel
  induction fuel with
  | zero =>
    intro st st1 hinv h
    cases h
    exact hinv
  | succ fuel ih =>
    intro st st1 hinv h
    unfold runE at h
    by_cases hs : st.processing_stack = []
    · rw [if_pos hs] at h
      cases h
      exact hinv
    · rw [if_neg hs] at h
      cases hstep : searchStepE false alpha n st with
      | error e =>
        rw [hstep] at h
        cases h
      | ok st2 =>
        rw [hstep] at h
        exact ih st2 st1 (searchStepE_inv alpha n hn hw st st2 hinv hstep) h

theorem initState_inv (alpha : List Char) (n : Nat) (hn : 2 ≤ n) (hw : 'w' ∉ alpha) :
    SearchInv alpha n (initState alpha) := by
  refine ⟨?_, ?_, ?_⟩
  · intro kv hkv
    simp [initState] at hkv
  · intro w hwmem
    simp only [initState, List.mem_singleton] at hwmem
    subst hwmem
    constructor
    · intro i h
      unfold first_candidate at h ⊢
      cases alpha with
      | nil => simp at h
      | cons a rest =>
        have hi0 : i = 0 := by
          simp [List.length_take] at h
          omega
        subst hi0
        have hget : ((a :: rest).take 1).get ⟨0, h⟩ = a := rfl
        rw [hget]
        constructor
        · intro haw
          exact absurd (haw ▸ List.mem_cons_self a rest) hw
        · intro h0
          have : (0 : Nat) % n = 0 := Nat.zero_mod n
          omega
    · intro l h1 h2
      have hlen1 : (first_candidate alpha).length ≤ 1 := by
        unfold first_candidate
        rw [List.length_take]
        omega
      have : l = 1 := by omega
      subst this
      apply hasRepeatedSubword_short alpha n (by omega)
      rw [List.length_take]
      omega
  · intro w hwmem
    simp [initState] at hwmem

/-! ## Short words bypass the cache -/

theorem coveredSubwordsC_short (alpha : List Char) (n : Nat) (c : SubwordCache)
    (word : Word) (h : word.length < n) :
    coveredSubwordsC alpha n c word = (∅, c) := by
  cases word with
  | nil => rfl
  | cons a as =>
    show coveredSubwordsCFuel alpha n (as.length + 1) c (a :: as) = (∅, c)
    simp only [coveredSubwordsCFuel]
    rw [if_pos h]

/-! ## The verbose diagnostic kills every recording -/

theorem lookupName_words : lookupName "words" = Except.error PyErr.nameError := by decide

theorem processCandidates_verbose_upwords (alpha : List Char) (n : Nat) (word : Word) :
    ∀ (syms : List Char) (isLeaf : Bool) (st : SearchState) (b : Bool) (st1 : SearchState),
      processCandidates true alpha n word syms isLeaf st = Except.ok (b, st1) →
      st1.upwords = st.upwords := by
  intro syms
  induction syms with
  | nil =>
    intro isLeaf st b st1 h
    simp only [processCandidates] at h
    cases h
    rfl
  | cons ch rest ih =>
    intro isLeaf st b st1 h
    by_cases hrep : (hasRepeatedSubwordC alpha n st.cache (word ++ [ch])).1 = true
    · simp only [processCandidates, hrep, if_true] at h
      exact ih isLeaf
        ⟨st.processing_stack, st.upwords, (hasRepeatedSubwordC alpha n st.cache (word ++ [ch])).2⟩
        b st1 h
    · by_cases htgt : (word ++ [ch]).length = target_length alpha n
      · simp only [processCandidates, hrep, Bool.false_eq_true, if_false, htgt, if_true,
          eq_self_iff_true, lookupName_words] at h
        exact Except.noConfusion h
      · simp only [processCandidates, hrep, Bool.false_eq_true, if_false, htgt] at h
        exact ih false
          ⟨st.processing_stack ++ [word ++ [ch]], st.upwords,
            (hasRepeatedSubwordC alpha n st.cache (word ++ [ch])).2⟩
          b st1 h

theorem searchStepE_verbose_upwords (alpha : List Char) (n : Nat) (st st1 : SearchState)
    (h : searchStepE true alpha n st = Except.ok st1) : st1.upwords = st.upwords := by
  unfold searchStepE at h
  cases hpop : st.processing_stack.getLast? with
  | none =>
    rw [hpop] at h
    cases h
    rfl
  | some word =>
    rw [hpop] at h
    dsimp only at h
    cases hproc : processCandidates true alpha n word (next_symbols alpha n word) true
        ⟨st.processing_stack.dropLast, st.upwords, st.cache⟩ with
    | error e =>
      rw [hproc] at h
      cases h
    | ok r =>
      obtain ⟨isLeaf, st2⟩ := r
      rw [hproc] at h
      have h2 := processCandidates_verbose_upwords alpha n word (next_symbols alpha n word)
        true ⟨st.processing_stack.dropLast, st.upwords, st.cache⟩ isLeaf st2 hproc
      cases h
      by_cases hleaf : isLeaf = true
      · rw [if_pos hleaf]
        exact h2
      · rw [if_neg hleaf]
        exact h2

theorem runE_verbose_upwords (alpha : List Char) (n : Nat) :
    ∀ (fuel : Nat) (st st1 : SearchState),
      runE true alpha n fuel st = Except.ok st1 → st1.upwords = st.upwords := by
  intro fuel
  induction fuel with
  | zero =>
    intro st st1 h
    cases h
    rfl
  | succ fuel ih =>
    intro st st1 h
    unfold runE at h
    by_cases hs : st.processing_stack = []
    · rw [if_pos hs] at h
      cases h
      rfl
    · rw [if_neg hs] at h
      cases hstep : searchStepE true alpha n st with
      | error e =>
        rw [hstep] at h
        cases h
      | ok st2 =>
        rw [hstep] at h
        rw [ih st2 st1 h]
        exact searchStepE_verbose_upwords alpha n st st2 hstep

/-! ## Counting retained cache entries -/

theorem nodup_length_le_of_subset {l L : List Word} (hnd : l.Nodup)
    (hs : ∀ x ∈ l, x ∈ L) : l.length ≤ L.length := by
  calc l.length = l.toFinset.card := (List.toFinset_card_of_nodup hnd).symm
    _ ≤ L.toFinset.card := Finset.card_le_card (fun x hx =>
        List.mem_toFinset.mpr (hs x (List.mem_toFinset.mp hx)))
    _ ≤ L.length := L.toFinset_card_le

/-! ## The claims -/

/-- C1: every word the search appends to `upwords` satisfies the
    no-repeated-window invariant: enumerating every window position and
    expanding the wildcard into each alphabet symbol yields no concrete
    window at two distinct (position, symbol) pairs, because every prefix of
    a recorded word passed `hasRepeatedSubword` during the search. -/
theorem C1_results_no_repeated_window (alpha : List Char) (n : Nat) (hn : 2 ≤ n)
    (hw : 'w' ∉ alpha) (fuel : Nat) (st1 : SearchState)
    (h : runE false alpha n fuel (initState alpha) = Except.ok st1) :
    ∀ x ∈ st1.upwords, noRepeatedWindow alpha n x := by
  intro x hx
  obtain ⟨g, p, _⟩ :=
    (runE_inv alpha n hn hw fuel _ st1 (initState_inv alpha n hn hw) h).2.2 x hx
  exact passed_imp_noRepeatedWindow alpha n hn x g p

/-- Witness for C1 at alphabet {0}, window length 2: the run records the
    word 0w, and the theorem yields its no-repeated-window property. -/
theorem C1_results_no_repeated_window_witness :
    ((2 : Nat) ≤ 2 ∧ 'w' ∉ (['0'] : List Char)) ∧
      noRepeatedWindow ['0'] 2 ['0', 'w'] :=
  ⟨⟨le_rfl, by decide⟩,
    C1_results_no_repeated_window ['0'] 2 le_rfl (by decide) 3
      ⟨[], [['0', 'w']], ⟨[], 9000⟩⟩ (by decide) ['0', 'w'] (by decide)⟩

/-- C2: the memoized `coveredSubwords`, run from any cache whose entries are
    correct, satisfies the coverage recurrence: the empty set below the
    window length (including at the empty word), and otherwise the coverage
    of the word minus its last symbol unioned with the expansions of the
    final window. -/
theorem C2_coverage_recurrence (alpha : List Char) (n : Nat) (hn : 1 ≤ n)
    (c : SubwordCache) (hc : CacheOK alpha n c) (w : Word) :
    (w.length < n → (coveredSubwordsC alpha n c w).1 = ∅) ∧
    (n ≤ w.length → (coveredSubwordsC alpha n c w).1 =
      (coveredSubwordsC alpha n c w.dropLast).1 ∪
        expandWindow alpha (lastWindow n w)) := by
  have h1 := (coveredSubwordsC_correct alpha n hn c w hc).1
  have h2 := (coveredSubwordsC_correct alpha n hn c w.dropLast hc).1
  constructor
  · intro hlt
    rw [h1, coveredSubwords_short alpha n w hlt]
  · intro hge
    rw [h1, h2, coveredSubwords_rec alpha n hn w hge]

/-- Witness for C2 at the fresh cache and the word 0w, window length 2. -/
theorem C2_coverage_recurrence_witness :
    ((1 : Nat) ≤ 2 ∧ CacheOK ['0', '1'] 2 ⟨[], 9000⟩) ∧
      (2 ≤ (['0', 'w'] : Word).length →
        (coveredSubwordsC ['0', '1'] 2 ⟨[], 9000⟩ ['0', 'w']).1 =
          (coveredSubwordsC ['0', '1'] 2 ⟨[], 9000⟩ (['0', 'w'] : Word).dropLast).1 ∪
            expandWindow ['0', '1'] (lastWindow 2 ['0', 'w'])) :=
  ⟨⟨by omega, fun kv hkv => absurd hkv (List.not_mem_nil kv)⟩,
    (C2_coverage_recurrence ['0', '1'] 2 (by omega) ⟨[], 9000⟩
      (fun kv hkv => absurd hkv (List.not_mem_nil kv)) ['0', 'w']).2⟩

/-- C3: eviction is a pure performance optimization: after any sequence of
    memoized coverage queries, `expire` calls with arbitrary frontiers, and
    `setMaxEntries` calls starting from the fresh cache, a coverage query
    returns exactly the value of the uncached recurrence. -/
theorem C3_eviction_transparent (alpha : List Char) (n : Nat) (hn : 1 ≤ n)
    (ops : List CacheOp) (w : Word) :
    (coveredSubwordsC alpha n (runOps alpha n ops) w).1 = coveredSubwords alpha n w :=
  (coveredSubwordsC_correct alpha n hn (runOps alpha n ops) w
    (runOps_cacheOK alpha n hn ops)).1

/-- Witness for C3: a query after a capacity drop to 0 and a full eviction
    still returns the uncached value. -/
theorem C3_eviction_transparent_witness :
    (1 : Nat) ≤ 2 ∧
      (coveredSubwordsC ['0', '1'] 2
          (runOps ['0', '1'] 2
            [CacheOp.query ['0', 'w', '0'], CacheOp.setMax 0,
              CacheOp.expireOp [], CacheOp.query ['0', 'w']]) ['0', 'w', '0']).1 =
        coveredSubwords ['0', '1'] 2 ['0', 'w', '0'] :=
  ⟨by omega,
    C3_eviction_transparent ['0', '1'] 2 (by omega)
      [CacheOp.query ['0', 'w', '0'], CacheOp.setMax 0,
        CacheOp.expireOp [], CacheOp.query ['0', 'w']] ['0', 'w', '0']⟩

/-- C4: `expire` is a no-op while the cache is below `max_entries`;
    otherwise it keeps exactly the entries whose key is a frontier word
    minus its last symbol, and the surviving cache has at most one entry per
    frontier word. -/
theorem C4_expire_frame (c : SubwordCache) (frontier : List Word)
    (hkeys : (c.mem_seenWords.map Prod.fst).Nodup) :
    (size c < c.max_entries → expire c frontier = c) ∧
    (¬ size c < c.max_entries →
      (∀ kv, kv ∈ (expire c frontier).mem_seenWords ↔
        kv ∈ c.mem_seenWords ∧ kv.1 ∈ frontier.map (fun w => w.dropLast)) ∧
      size (expire c frontier) ≤ frontier.length) := by
  constructor
  · intro h
    have h2 : c.mem_seenWords.length < c.max_entries := h
    unfold expire
    rw [if_pos h2]
  · intro h
    have h2 : ¬ c.mem_seenWords.length < c.max_entries := h
    have hexp : (expire c frontier).mem_seenWords =
        c.mem_seenWords.filter
          (fun kv => decide (kv.1 ∈ frontier.map (fun w => w.dropLast))) := by
      unfold expire
      rw [if_neg h2]
    constructor
    · intro kv
      rw [hexp, List.mem_filter, decide_eq_true_eq]
    · have hnd : ((c.mem_seenWords.filter
          (fun kv => decide (kv.1 ∈ frontier.map (fun w => w.dropLast)))).map
            Prod.fst).Nodup :=
        List.Nodup.sublist (List.Sublist.map Prod.fst (List.filter_sublist _)) hkeys
      have hsub : ∀ x ∈ (c.mem_seenWords.filter
            (fun kv => decide (kv.1 ∈ frontier.map (fun w => w.dropLast)))).map Prod.fst,
          x ∈ frontier.map (fun w => w.dropLast) := by
        intro x hx
        obtain ⟨kv, hkv, hfst⟩ := List.mem_map.mp hx
        have hmem := (List.mem_filter.mp hkv).2
        rw [decide_eq_true_eq] at hmem
        rw [← hfst]
        exact hmem
      have hle := nodup_length_le_of_subset hnd hsub
      rw [List.length_map, List.length_map] at hle
      show (expire c frontier).mem_seenWords.length ≤ frontier.length
      rw [hexp]
      exact hle

/-- Witness for C4: a one-entry cache at capacity 1 is evicted against a
    one-word frontier and stays within the bound. -/
theorem C4_expire_frame_witness :
    (((⟨[((['0'] : Word), (∅ : Finset Word))], 1⟩ : SubwordCache).mem_seenWords.map
        Prod.fst).Nodup ∧
      ¬ size (⟨[((['0'] : Word), (∅ : Finset Word))], 1⟩ : SubwordCache) <
        (⟨[((['0'] : Word), (∅ : Finset Word))], 1⟩ : SubwordCache).max_entries) ∧
      size (expire (⟨[((['0'] : Word), (∅ : Finset Word))], 1⟩ : SubwordCache)
        [['0', '1']]) ≤ ([['0', '1']] : List Word).length :=
  ⟨⟨by decide, by decide⟩,
    ((C4_expire_frame ⟨[(['0'], ∅)], 1⟩ [['0', '1']] (by decide)).2 (by decide)).2⟩

/-- C5: `hasRepeatedSubword`, run from a correct cache, returns true exactly
    when some alphabet symbol makes the expansion of the final window a
    member of the coverage of the word minus its last symbol; and the scan
    returns true at the first conflicting symbol without examining the
    remaining alphabet symbols. -/
theorem C5_hasRepeated_iff (alpha : List Char) (n : Nat) (hn : 1 ≤ n)
    (c : SubwordCache) (hc : CacheOK alpha n c) (word : Word) :
    ((hasRepeatedSubwordC alpha n c word).1 = true ↔
      ∃ a ∈ alpha,
        replaceWild a (lastWindow n word) ∈
          coveredSubwords alpha n word.dropLast) ∧
    (∀ (a : Char) (rest : List Char),
      replaceWild a (lastWindow n word) ∈ coveredSubwords alpha n word.dropLast →
      hasRepeatedLoop n word (coveredSubwords alpha n word.dropLast) (a :: rest) = true) := by
  have h1 := (hasRepeatedSubwordC_correct alpha n hn c word hc).1
  constructor
  · rw [h1]
    exact hasRepeatedLoop_true_iff n word _ alpha
  · intro a rest hmem
    unfold hasRepeatedLoop
    rw [if_pos hmem]

/-- Witness for C5 at the fresh cache and the candidate 0w0, which repeats
    the window 00. -/
theorem C5_hasRepeated_iff_witness :
    ((1 : Nat) ≤ 2 ∧ CacheOK ['0', '1'] 2 ⟨[], 9000⟩) ∧
      ((hasRepeatedSubwordC ['0', '1'] 2 ⟨[], 9000⟩ ['0', 'w', '0']).1 = true ↔
        ∃ a ∈ ['0', '1'],
          replaceWild a (lastWindow 2 ['0', 'w', '0']) ∈
            coveredSubwords ['0', '1'] 2 (['0', 'w', '0'] : Word).dropLast) :=
  ⟨⟨by omega, fun kv hkv => absurd hkv (List.not_mem_nil kv)⟩,
    (C5_hasRepeated_iff ['0', '1'] 2 (by omega) ⟨[], 9000⟩
      (fun kv hkv => absurd hkv (List.not_mem_nil kv)) ['0', 'w', '0']).1⟩

/-- C6: the candidate next-symbol set is the singleton wildcard exactly on
    the last position of a window and the full alphabet otherwise; hence
    every word the search keeps (on the stack or among the results) carries
    the wildcard at exactly the last position of each window frame. -/
theorem C6_wildcard_placement (alpha : List Char) (n : Nat) (hn : 2 ≤ n)
    (hw : 'w' ∉ alpha) :
    (∀ word : Word,
      (word.length % n = n - 1 → next_symbols alpha n word = ['w']) ∧
      (word.length % n ≠ n - 1 → next_symbols alpha n word = alpha)) ∧
    (∀ (fuel : Nat) (st1 : SearchState),
      runE false alpha n fuel (initState alpha) = Except.ok st1 →
      ∀ w, w ∈ st1.processing_stack ∨ w ∈ st1.upwords → oneWildcardPerWindow n w) := by
  constructor
  · intro word
    constructor
    · intro h
      unfold next_symbols
      rw [if_pos h]
    · intro h
      unfold next_symbols
      rw [if_neg h]
  · intro fuel st1 h w hmem
    have hinv := runE_inv alpha n hn hw fuel _ st1 (initState_inv alpha n hn hw) h
    rcases hmem with hm | hm
    · exact (hinv.2.1 w hm).1
    · exact (hinv.2.2 w hm).1

/-- Witness for C6: after one step of the binary window-2 search, the
    stacked word 0w has the wildcard exactly on the window boundary. -/
theorem C6_wildcard_placement_witness :
    ((2 : Nat) ≤ 2 ∧ 'w' ∉ (['0', '1'] : List Char)) ∧
      oneWildcardPerWindow 2 ['0', 'w'] :=
  ⟨⟨le_rfl, by decide⟩,
    (C6_wildcard_placement ['0', '1'] 2 le_rfl (by decide)).2 1
      ⟨[['0', 'w']], [], ⟨[], 9000⟩⟩ (by decide) ['0', 'w'] (Or.inl (by decide))⟩

/-- C7: with verbose output enabled, recording a result fails: the
    diagnostic print reads the unbound name `words`, so a verbose run can
    only return normally with its result list unchanged, and a
    parameterization that finds a result raises `NameError` at the first
    recording (alphabet {0}, window length 2 finds its first result
    immediately). -/
theorem C7_verbose_recording_fails (alpha : List Char) (n : Nat) :
    (∀ (fuel : Nat) (st st1 : SearchState),
      runE true alpha n fuel st = Except.ok st1 → st1.upwords = st.upwords) ∧
    runE true ['0'] 2 3 (initState ['0']) = Except.error PyErr.nameError := by
  constructor
  · exact runE_verbose_upwords alpha n
  · decide

/-- Witness for C7: the binary window-2 verbose search finds no result and
    terminates normally with the result list still empty. -/
theorem C7_verbose_recording_fails_witness :
    (⟨[], [], ⟨[(['0', 'w'], ({['0', '0'], ['0', '1']} : Finset Word))], 9000⟩⟩ :
        SearchState).upwords = (initState ['0', '1']).upwords :=
  (C7_verbose_recording_fails ['0', '1'] 2).1 5 (initState ['0', '1'])
    ⟨[], [], ⟨[(['0', 'w'], ({['0', '0'], ['0', '1']} : Finset Word))], 9000⟩⟩ (by decide)

/-- C8: with window length 1 over the binary alphabet the target length
    equals the seed word's length, and the search terminates with an empty
    result list: the seed is expanded, its only child is rejected, and the
    seed itself is never tested against the target length. -/
theorem C8_seed_target_not_recorded :
    target_length ['0', '1'] 1 = (first_candidate ['0', '1']).length ∧
    (runE false ['0', '1'] 1 5 (initState ['0', '1'])).map
      (fun s => (s.processing_stack, s.upwords)) = Except.ok ([], []) := by
  constructor
  · decide
  · decide

/-- Counterexample for C9: the seed 0 of the binary window-2 search is not
    an immediate leaf: its extension 0w passes `hasRepeatedSubword`, and the
    first iteration pushes 0w onto the stack rather than pruning. -/
theorem C9_seed_not_leaf_counterexample :
    hasRepeatedSubword ['0', '1'] 2 ['0', 'w'] = false ∧
    (searchStepE false ['0', '1'] 2 (initState ['0', '1'])).map
      (fun s => s.processing_stack) = Except.ok [['0', 'w']] := by
  constructor
  · decide
  · decide

/-- C9 (amended): for the binary alphabet with window length 2 the target
    length is 3 and the search ends with an empty result list; both length-3
    extensions 0w0 and 0w1 repeat a window, so the seed's only child 0w
    (pushed in the first iteration) is the immediate leaf. -/
theorem C9_no_solution_scenario :
    target_length ['0', '1'] 2 = 3 ∧
    hasRepeatedSubword ['0', '1'] 2 ['0', 'w', '0'] = true ∧
    hasRepeatedSubword ['0', '1'] 2 ['0', 'w', '1'] = true ∧
    hasRepeatedSubword ['0', '1'] 2 ['0', 'w'] = false ∧
    (runE false ['0', '1'] 2 5 (initState ['0', '1'])).map
      (fun s => (s.processing_stack, s.upwords)) = Except.ok ([], []) := by
  refine ⟨by decide, by decide, by decide, by decide, by decide⟩

/-- C10: a non-empty word no longer than the window length always passes
    `hasRepeatedSubword`, from any cache state: the coverage of the word
    minus its last symbol is empty, so no expansion can be a member. -/
theorem C10_short_words_pass (alpha : List Char) (n : Nat) (c : SubwordCache)
    (word : Word) (hn : 1 ≤ n) (h1 : 1 ≤ word.length) (h2 : word.length ≤ n) :
    (hasRepeatedSubwordC alpha n c word).1 = false ∧
    hasRepeatedSubword alpha n word = false := by
  have hs : word.dropLast.length < n := by
    rw [List.length_dropLast]
    omega
  constructor
  · show hasRepeatedLoop n word (coveredSubwordsC alpha n c word.dropLast).1 alpha = false
    rw [coveredSubwordsC_short alpha n c word.dropLast hs]
    exact hasRepeatedLoop_empty n word alpha
  · exact hasRepeatedSubword_short alpha n hn word h2

/-- Witness for C10 at the one-symbol word 0, window length 2. -/
theorem C10_short_words_pass_witness :
    ((1 : Nat) ≤ 2 ∧ 1 ≤ (['0'] : Word).length ∧ (['0'] : Word).length ≤ 2) ∧
      (hasRepeatedSubwordC ['0', '1'] 2 ⟨[], 9000⟩ ['0']).1 = false ∧
      hasRepeatedSubword ['0', '1'] 2 ['0'] = false :=
  ⟨⟨by omega, by decide, by decide⟩,
    C10_short_words_pass ['0', '1'] 2 ⟨[], 9000⟩ ['0'] (by omega) (by decide) (by decide)⟩

end Upword
